import Mathlib

/-!
# Verification of the ExcaliReact row-segmentation and geometry engine

Shallow embedding of `src/parser/utils.ts`: the row classifier
(`areInSameRow`), the row segmentation engine (`splitIntoRows`), the
bounding-box computations (`computeGroupNodeBoundingBox`,
`computeFrameNodeBoundingBox`, `computeRowBoundingBox`), the derived-metric
calculators (`computeFramePadding`, `roundOffToDecimals`) and the
formatting wrapper (`formatCode`).

Conventions of the embedding:
* JavaScript numbers are modelled as rationals (`ℚ`); the claims under
  scrutiny involve no float-specific behaviour.
* The `Infinity` / `-Infinity` sentinels used by the bounding-box
  accumulators are modelled by the extended-rational type `XQ` below,
  with `Math.min` / `Math.max` translated case by case.
* `ROW_THRESHOLD_GAP` lives in `src/constants.ts`, outside the sources at
  hand; per the spec's constants contract it is "a single external
  configuration knob" treated as an opaque parameter, so every function
  that consults it takes it as an explicit `gap` argument.
* The external code formatter (prettier) is abstracted as a function
  argument returning `Except`; the try/catch logic of `formatCode` itself
  is translated from the source.
-/

/-- Extended rationals: a rational, or the JavaScript `Infinity` /
`-Infinity` sentinels that seed the bounding-box accumulators. -/
inductive XQ where
  | negInf : XQ
  | fin : ℚ → XQ
  | posInf : XQ
deriving DecidableEq, Repr

/-- `Math.min` on extended rationals (NaN never arises in this code). -/
def XQ.min : XQ → XQ → XQ
  | .negInf, _ => .negInf
  | _, .negInf => .negInf
  | .posInf, b => b
  | a, .posInf => a
  | .fin a, .fin b => .fin (Min.min a b)

/-- `Math.max` on extended rationals. -/
def XQ.max : XQ → XQ → XQ
  | .posInf, _ => .posInf
  | _, .posInf => .posInf
  | .negInf, b => b
  | a, .negInf => a
  | .fin a, .fin b => .fin (Max.max a b)

/-- Boolean order on extended rationals. -/
def XQ.ble : XQ → XQ → Bool
  | .negInf, _ => true
  | .fin _, .negInf => false
  | .fin a, .fin b => decide (a ≤ b)
  | .fin _, .posInf => true
  | .posInf, .posInf => true
  | .posInf, _ => false

/-- Order on extended rationals, as a proposition. -/
def XQ.le (a b : XQ) : Prop := XQ.ble a b = true

/-- Subtraction of a plain number from a possibly-infinite one, as
JavaScript evaluates `boundingBox.minX - frame.x`. -/
def XQ.subFin : XQ → ℚ → XQ
  | .fin a, b => .fin (a - b)
  | .posInf, _ => .posInf
  | .negInf, _ => .negInf

/-- Subtraction of a possibly-infinite number from a plain one, as
JavaScript evaluates `frame.x + frame.width - boundingBox.maxX`. -/
def XQ.finSub (a : ℚ) : XQ → XQ
  | .fin b => .fin (a - b)
  | .posInf => .negInf
  | .negInf => .posInf

/-- The geometric payload of a node: absolute position and size.
Style attributes are opaque to the geometry engine and omitted. -/
structure Box where
  x : ℚ
  y : ℚ
  width : ℚ
  height : ℚ
deriving DecidableEq, Repr

/-- Input node of the segmentation engine (`TreeNode` in
`src/parser/types.ts`): a leaf element or a group with an ordered list of
children, discriminated in the source by `child.type === "group"`. -/
inductive TreeNode where
  | elem (b : Box)
  | group (b : Box) (children : List TreeNode)
deriving Repr

/-- Output node of `splitIntoRows`: group nodes gain a `rows` field
(the source spreads the group object and adds `rows`), leaves are
passed through unchanged. -/
inductive RowNode where
  | elem (b : Box)
  | group (b : Box) (children : List TreeNode) (rows : List (List RowNode))
deriving Repr

/-- `areInSameRow` from `src/parser/utils.ts` (lines 280-290): vertical
overlap of the two nodes' `[y, y+height]` bands must strictly exceed
`ROW_THRESHOLD_GAP` (here the `gap` parameter). Only `y` and `height`
of each node are consulted. -/
def areInSameRow (gap : ℚ) (node1 node2 : Box) : Bool :=
  let node1Top := node1.y
  let node1Bottom := node1.y + node1.height
  let node2Top := node2.y
  let node2Bottom := node2.y + node2.height
  let overlap := Min.min node1Bottom node2Bottom - Max.max node1Top node2Top
  decide (overlap > gap)

mutual

/-- `splitIntoRows` from `src/parser/utils.ts` (lines 292-344). Empty
input gives no rows; a leading group returns early with the single row
`[group with rows]`; otherwise the loop starting at line 314 is entered
with `currentRow = [firstChild]` and `previousElement = firstChild`. -/
def splitIntoRows (gap : ℚ) : List TreeNode → List (List RowNode)
  | [] => []
  | node :: rest =>
    match node with
    | .group b cs => [[RowNode.group b cs (splitIntoRows gap cs)]]
    | .elem b => splitLoop gap rest [RowNode.elem b] b []

/-- The `for` loop of `splitIntoRows` (lines 314-343), with the mutable
`currentRow`, `previousElement` and `result` variables threaded as
arguments. `prev` is the box of `previousElement`: the spread
`{...groupNode, rows}` keeps the group's own `y`/`height`, and
`areInSameRow` reads nothing else. After the loop the final `currentRow`
is appended unconditionally (line 342). -/
def splitLoop (gap : ℚ) :
    List TreeNode → List RowNode → Box → List (List RowNode) →
      List (List RowNode)
  | [], currentRow, _, result => result ++ [currentRow]
  | child :: rest, currentRow, prev, result =>
    match child with
    | .group b cs =>
      let g := RowNode.group b cs (splitIntoRows gap cs)
      if areInSameRow gap b prev then
        splitLoop gap rest (currentRow ++ [g]) b result
      else
        splitLoop gap rest [g] b (result ++ [currentRow])
    | .elem b =>
      if areInSameRow gap b prev then
        splitLoop gap rest (currentRow ++ [RowNode.elem b]) b result
      else
        splitLoop gap rest [RowNode.elem b] b (result ++ [currentRow])

end

/-- The accumulator record of the bounding-box functions. -/
structure BBox where
  minX : XQ
  minY : XQ
  maxX : XQ
  maxY : XQ
deriving DecidableEq, Repr

/-- The initial accumulator `(Infinity, Infinity, -Infinity, -Infinity)`
used by every bounding-box loop in the source. -/
def bboxSentinel : BBox := ⟨.posInf, .posInf, .negInf, .negInf⟩

mutual

/-- `computeGroupNodeBoundingBox` from `src/parser/utils.ts`
(lines 191-213). The source receives a `GroupNode` and reads only
`node.children`; the embedding therefore takes the children list
directly. -/
def computeGroupNodeBoundingBox (children : List TreeNode) : BBox :=
  bboxLoop children bboxSentinel

/-- The `for (const child of node.children)` loop of
`computeGroupNodeBoundingBox`, with the four min/max accumulators
threaded as a `BBox`. A group child contributes its recursively
recomputed box; a leaf contributes `(x, y)`-`(x+width, y+height)`. -/
def bboxLoop : List TreeNode → BBox → BBox
  | [], acc => acc
  | child :: rest, acc =>
    match child with
    | .group _ cs =>
      let bb := computeGroupNodeBoundingBox cs
      bboxLoop rest
        ⟨XQ.min acc.minX bb.minX, XQ.min acc.minY bb.minY,
         XQ.max acc.maxX bb.maxX, XQ.max acc.maxY bb.maxY⟩
    | .elem b =>
      bboxLoop rest
        ⟨XQ.min acc.minX (.fin b.x), XQ.min acc.minY (.fin b.y),
         XQ.max acc.maxX (.fin (b.x + b.width)),
         XQ.max acc.maxY (.fin (b.y + b.height))⟩

end

/-- `computeRowBoundingBox` from `src/parser/utils.ts` (lines 237-253).
A `null` row (`none` here) short-circuits to the zero box via
`if (!row)`; any actual array — including the empty array, which is
truthy in JavaScript — goes through the min/max loop. The source reads
only `x`, `y`, `width`, `height` of the row entries, so a row is
modelled as a list of boxes. -/
def computeRowBoundingBox : Option (List Box) → BBox
  | none => ⟨.fin 0, .fin 0, .fin 0, .fin 0⟩
  | some row =>
    row.foldl
      (fun acc element =>
        ⟨XQ.min acc.minX (.fin element.x), XQ.min acc.minY (.fin element.y),
         XQ.max acc.maxX (.fin (element.x + element.width)),
         XQ.max acc.maxY (.fin (element.y + element.height))⟩)
      bboxSentinel

/-- An Excalidraw element as consumed by the frame-scoped functions:
its id, the id of the frame it references (or `none`), and its
geometry. -/
structure ExElement where
  id : String
  frameId : Option String
  x : ℚ
  y : ℚ
  width : ℚ
  height : ℚ
deriving DecidableEq, Repr

/-- `computeFrameNodeBoundingBox` from `src/parser/utils.ts`
(lines 215-235): filter the flat element list by
`element.frameId === frame.id`, then accumulate min/max over the
filtered elements. -/
def computeFrameNodeBoundingBox (frame : ExElement)
    (elements : List ExElement) : BBox :=
  let frameElements := elements.filter
    (fun element => decide (element.frameId = some frame.id))
  frameElements.foldl
    (fun acc element =>
      ⟨XQ.min acc.minX (.fin element.x), XQ.min acc.minY (.fin element.y),
       XQ.max acc.maxX (.fin (element.x + element.width)),
       XQ.max acc.maxY (.fin (element.y + element.height))⟩)
    bboxSentinel

/-- `roundOffToDecimals` from `src/parser/utils.ts` (lines 394-396):
`Math.round(value * 10^decimals) / 10^decimals`. JavaScript
`Math.round` rounds half toward positive infinity, i.e. `⌊v + 1/2⌋`. -/
def roundOffToDecimals (value : ℚ) (decimals : ℕ) : ℚ :=
  ((⌊value * 10 ^ decimals + 1 / 2⌋ : ℚ)) / 10 ^ decimals

/-- `roundOffToDecimals` lifted to the possibly-infinite values flowing
out of an empty bounding box: in JavaScript,
`Math.round(Infinity * 100) / 100` is again `Infinity`. -/
def XQ.roundOff2 : XQ → XQ
  | .fin q => .fin (roundOffToDecimals q 2)
  | .posInf => .posInf
  | .negInf => .negInf

/-- The padding record returned by `computeFramePadding`. -/
structure FramePadding where
  left : XQ
  top : XQ
  right : XQ
  bottom : XQ
deriving DecidableEq, Repr

/-- `computeFramePadding` from `src/parser/utils.ts` (lines 261-278):
each side is the distance between the frame edge and the corresponding
edge of the frame-scoped bounding box, rounded to 2 decimals. -/
def computeFramePadding (frame : ExElement)
    (elements : List ExElement) : FramePadding :=
  let boundingBox := computeFrameNodeBoundingBox frame elements
  { left := (boundingBox.minX.subFin frame.x).roundOff2
    top := (boundingBox.minY.subFin frame.y).roundOff2
    right := (XQ.finSub (frame.x + frame.width) boundingBox.maxX).roundOff2
    bottom := (XQ.finSub (frame.y + frame.height) boundingBox.maxY).roundOff2 }

/-- `formatCode` from `src/parser/utils.ts` (lines 370-386). The call to
the external formatter (prettier with a fixed configuration) is
abstracted as the argument `formatter`, which either succeeds with the
formatted text or fails; the `try`/`catch` of the source catches the
failure and returns the input unchanged. -/
def formatCode (formatter : String → Except String String)
    (code : String) : String :=
  match formatter code with
  | .ok formattedCode => formattedCode
  | .error _ => code

/- Auxiliary notions for the theorems: nesting depth, fuel-indexed
variants witnessing termination, well-formedness and element-presence
predicates, and the per-child box used to state the union property. -/

mutual

/-- Nesting depth of a node: 0 for a leaf, one more than the depth of
the children for a group. -/
def nodeDepth : TreeNode → ℕ
  | .elem _ => 0
  | .group _ cs => listDepth cs + 1

/-- Nesting depth of a children list: the maximum over its members. -/
def listDepth : List TreeNode → ℕ
  | [] => 0
  | c :: rest => Max.max (nodeDepth c) (listDepth rest)

end

mutual

/-- Fuel-indexed variant of `splitIntoRows`: fuel is consumed exactly
when the recursion descends into a group's children, so the fuel needed
is the nesting depth, not the node count. -/
def splitIntoRowsF (gap : ℚ) :
    ℕ → List TreeNode → Option (List (List RowNode))
  | _, [] => some []
  | fuel, .elem b :: rest => splitLoopF gap fuel rest [RowNode.elem b] b []
  | 0, .group _ _ :: _ => none
  | f + 1, .group b cs :: _ =>
    (splitIntoRowsF gap f cs).map (fun rs => [[RowNode.group b cs rs]])

/-- Fuel-indexed variant of `splitLoop`; the iteration over the sibling
list consumes no fuel, only the descent into group children does. -/
def splitLoopF (gap : ℚ) :
    ℕ → List TreeNode → List RowNode → Box → List (List RowNode) →
      Option (List (List RowNode))
  | _, [], currentRow, _, result => some (result ++ [currentRow])
  | fuel, .elem b :: rest, currentRow, prev, result =>
    if areInSameRow gap b prev then
      splitLoopF gap fuel rest (currentRow ++ [RowNode.elem b]) b result
    else
      splitLoopF gap fuel rest [RowNode.elem b] b (result ++ [currentRow])
  | 0, .group _ _ :: _, _, _, _ => none
  | f + 1, .group b cs :: rest, currentRow, prev, result =>
    (splitIntoRowsF gap f cs).bind (fun rs =>
      if areInSameRow gap b prev then
        splitLoopF gap (f + 1) rest
          (currentRow ++ [RowNode.group b cs rs]) b result
      else
        splitLoopF gap (f + 1) rest
          [RowNode.group b cs rs] b (result ++ [currentRow]))

end

mutual

/-- Fuel-indexed variant of `computeGroupNodeBoundingBox`; fuel is
consumed exactly at each descent into a group's children. -/
def computeGroupNodeBoundingBoxF (fuel : ℕ)
    (children : List TreeNode) : Option BBox :=
  bboxLoopF fuel children bboxSentinel

/-- Fuel-indexed variant of `bboxLoop`. -/
def bboxLoopF : ℕ → List TreeNode → BBox → Option BBox
  | _, [], acc => some acc
  | fuel, .elem b :: rest, acc =>
    bboxLoopF fuel rest
      ⟨XQ.min acc.minX (.fin b.x), XQ.min acc.minY (.fin b.y),
       XQ.max acc.maxX (.fin (b.x + b.width)),
       XQ.max acc.maxY (.fin (b.y + b.height))⟩
  | 0, .group _ _ :: _, _ => none
  | f + 1, .group _ cs :: rest, acc =>
    (computeGroupNodeBoundingBoxF f cs).bind (fun bb =>
      bboxLoopF (f + 1) rest
        ⟨XQ.min acc.minX bb.minX, XQ.min acc.minY bb.minY,
         XQ.max acc.maxX bb.maxX, XQ.max acc.maxY bb.maxY⟩)

end

mutual

/-- Spec invariant "every Element has width, height ≥ 0", checked over a
whole node tree. -/
def nodeWF : TreeNode → Bool
  | .elem b => decide (0 ≤ b.width) && decide (0 ≤ b.height)
  | .group _ cs => listWF cs

/-- `nodeWF` over a children list. -/
def listWF : List TreeNode → Bool
  | [] => true
  | c :: rest => nodeWF c && listWF rest

end

mutual

/-- Whether a node tree contains at least one leaf element at some
depth (an empty group, or groups of empty groups, contain none). -/
def nodeHasElem : TreeNode → Bool
  | .elem _ => true
  | .group _ cs => listHasElem cs

/-- `nodeHasElem` over a children list. -/
def listHasElem : List TreeNode → Bool
  | [] => false
  | c :: rest => nodeHasElem c || listHasElem rest

end

/-- A child's own bounding box: its rectangle for a leaf, the
recursively recomputed box (never the cached `x`/`y`/`width`/`height`)
for a group. -/
def childBox : TreeNode → BBox
  | .elem b =>
    ⟨.fin b.x, .fin b.y, .fin (b.x + b.width), .fin (b.y + b.height)⟩
  | .group _ cs => computeGroupNodeBoundingBox cs

/-- Componentwise min/max union of two bounding boxes. -/
def bbUnion (a b : BBox) : BBox :=
  ⟨XQ.min a.minX b.minX, XQ.min a.minY b.minY,
   XQ.max a.maxX b.maxX, XQ.max a.maxY b.maxY⟩

/-- The segmentation property of an output node: a group carries in its
`rows` field exactly the segmentation of its own children. -/
def rowNodeSeg (gap : ℚ) : RowNode → Prop
  | .elem _ => True
  | .group _ cs rows => rows = splitIntoRows gap cs

/-- A bounding box that describes an actual (possibly degenerate)
rectangle: its minima do not exceed its maxima. The empty-input sentinel
is not good. -/
def goodBox (bb : BBox) : Prop :=
  XQ.le bb.minX bb.maxX ∧ XQ.le bb.minY bb.maxY

/- ------------------------------------------------------------------ -/
/- Theorems                                                           -/
/- ------------------------------------------------------------------ -/

/-- C2: for every children list whose first element is a group,
`splitIntoRows` returns exactly one row containing only that group, its
own children recursively segmented into its `rows` field, regardless of
how many siblings follow. -/
theorem C2_groupFirst_single_row (gap : ℚ) (b : Box)
    (cs rest : List TreeNode) :
    splitIntoRows gap (TreeNode.group b cs :: rest) =
      [[RowNode.group b cs (splitIntoRows gap cs)]] := by
  simp [splitIntoRows]

/-- C3: `areInSameRow` returns `true` exactly when the vertical overlap
`min(a.y + a.height, b.y + b.height) - max(a.y, b.y)` strictly exceeds
the threshold; an overlap equal to or below the threshold yields
`false`. -/
theorem C3_areInSameRow_iff_overlap (gap : ℚ) (node1 node2 : Box) :
    (areInSameRow gap node1 node2 = true ↔
      Min.min (node1.y + node1.height) (node2.y + node2.height) -
        Max.max node1.y node2.y > gap) ∧
    (Min.min (node1.y + node1.height) (node2.y + node2.height) -
        Max.max node1.y node2.y ≤ gap →
      areInSameRow gap node1 node2 = false) := by
  constructor
  · simp [areInSameRow]
  · intro h
    simp only [areInSameRow, decide_eq_false_iff_not]
    exact not_lt.mpr h

/-- Witness for C3: two boxes whose bands touch exactly (overlap 0, equal
to the threshold 0) are classified into different rows. -/
theorem C3_witness :
    (Min.min ((0 : ℚ) + 10) (10 + 10) - Max.max 0 10 ≤ 0) ∧
    areInSameRow 0 ⟨0, 0, 10, 10⟩ ⟨0, 10, 10, 10⟩ = false :=
  ⟨by norm_num,
   (C3_areInSameRow_iff_overlap 0 ⟨0, 0, 10, 10⟩ ⟨0, 10, 10, 10⟩).2
     (by norm_num)⟩

/-- C6: with threshold 0, the three elements at `y = 0, 5, 40`, each of
height 10, are segmented into the two rows `[[n0, n1], [n2]]`: the first
two overlap by 5 > 0, while the overlap of `n1` and `n2` is negative. -/
theorem C6_example_two_rows :
    splitIntoRows 0
      [TreeNode.elem ⟨0, 0, 10, 10⟩, TreeNode.elem ⟨0, 5, 10, 10⟩,
        TreeNode.elem ⟨0, 40, 10, 10⟩] =
      [[RowNode.elem ⟨0, 0, 10, 10⟩, RowNode.elem ⟨0, 5, 10, 10⟩],
        [RowNode.elem ⟨0, 40, 10, 10⟩]] := by
  simp [splitIntoRows, splitLoop, areInSameRow]
  norm_num

/-- Counterexample for C4: on an empty (but non-null) row the code does
NOT return the zero box — the empty array is truthy in JavaScript, so
the `if (!row)` guard does not fire and the min/max loop returns the
infinities sentinel. -/
theorem C4_counterexample :
    computeRowBoundingBox (some []) = bboxSentinel ∧
    computeRowBoundingBox (some []) ≠
      ⟨XQ.fin 0, XQ.fin 0, XQ.fin 0, XQ.fin 0⟩ := by
  decide

/-- C4 (amended): `computeGroupNodeBoundingBox` on empty children
returns the infinities sentinel; `computeRowBoundingBox` returns the
zero box only for a null row — an empty non-null row instead yields the
same infinities sentinel as the other accumulators. -/
theorem C4_amended_sentinels :
    computeGroupNodeBoundingBox [] = bboxSentinel ∧
    computeRowBoundingBox none =
      ⟨XQ.fin 0, XQ.fin 0, XQ.fin 0, XQ.fin 0⟩ ∧
    computeRowBoundingBox (some []) = bboxSentinel := by
  refine ⟨?_, rfl, rfl⟩
  simp [computeGroupNodeBoundingBox, bboxLoop]

/-- C8: `formatCode` never propagates a failure — a successful formatter
run is returned as-is, a failing one is masked by returning the original
input unchanged. -/
theorem C8_formatCode_never_fails
    (formatter : String → Except String String) (code : String) :
    (∀ s, formatter code = Except.ok s → formatCode formatter code = s) ∧
    (∀ e, formatter code = Except.error e →
      formatCode formatter code = code) := by
  constructor
  · intro s h
    simp [formatCode, h]
  · intro e h
    simp [formatCode, h]

/-- Witness for C8: a concrete succeeding formatter and a concrete
failing formatter. -/
theorem C8_witness :
    ((fun c => (Except.ok (String.append "ok: " c) :
        Except String String)) "input" = Except.ok "ok: input" ∧
      formatCode (fun c => Except.ok (String.append "ok: " c))
        "input" = "ok: input") ∧
    ((fun _ => (Except.error "fail" : Except String String)) "input" =
        Except.error "fail" ∧
      formatCode (fun _ => Except.error "fail") "input" = "input") :=
  ⟨⟨rfl,
    (C8_formatCode_never_fails
      (fun c => Except.ok (String.append "ok: " c)) "input").1
      "ok: input" rfl⟩,
   ⟨rfl,
    (C8_formatCode_never_fails (fun _ => Except.error "fail") "input").2
      "fail" rfl⟩⟩

/-- C7: each side of `computeFramePadding` is the rounded distance
between the frame edge and the corresponding edge of the bounding box of
the elements owned by the frame (those whose `frameId` equals the
frame's id); on the frame `(0,0,100,100)` with one owned child at
`(10,10,30,30)` this gives `{left 10, top 10, right 60, bottom 60}`. -/
theorem C7_framePadding (frame : ExElement) (elements : List ExElement) :
    ((computeFramePadding frame elements).left =
        ((computeFrameNodeBoundingBox frame elements).minX.subFin
          frame.x).roundOff2 ∧
      (computeFramePadding frame elements).top =
        ((computeFrameNodeBoundingBox frame elements).minY.subFin
          frame.y).roundOff2 ∧
      (computeFramePadding frame elements).right =
        (XQ.finSub (frame.x + frame.width)
          (computeFrameNodeBoundingBox frame elements).maxX).roundOff2 ∧
      (computeFramePadding frame elements).bottom =
        (XQ.finSub (frame.y + frame.height)
          (computeFrameNodeBoundingBox frame elements).maxY).roundOff2) ∧
    computeFramePadding ⟨"frame1", none, 0, 0, 100, 100⟩
        [⟨"child1", some "frame1", 10, 10, 30, 30⟩] =
      ⟨XQ.fin 10, XQ.fin 10, XQ.fin 60, XQ.fin 60⟩ := by
  refine ⟨⟨rfl, rfl, rfl, rfl⟩, ?_⟩
  simp only [computeFramePadding, computeFrameNodeBoundingBox, List.filter,
    List.foldl, bboxSentinel, XQ.min, XQ.max, XQ.subFin, XQ.finSub,
    XQ.roundOff2, roundOffToDecimals]
  norm_num [FramePadding.mk.injEq, XQ.min, XQ.max, XQ.subFin, XQ.finSub,
    XQ.roundOff2, roundOffToDecimals]

/-- Invariant of the row-building loop: when the current row and every
already-emitted row are non-empty, every row of the final result is
non-empty — a row is only ever emitted as `currentRow`, which is reset
to a singleton and only ever grows. -/
theorem splitLoop_rows_ne_nil (gap : ℚ) :
    ∀ (rest : List TreeNode) (cur : List RowNode) (prev : Box)
      (res : List (List RowNode)),
      cur ≠ [] → (∀ r ∈ res, r ≠ []) →
      ∀ r ∈ splitLoop gap rest cur prev res, r ≠ [] := by
  intro rest
  induction rest with
  | nil =>
    intro cur prev res hcur hres r hr
    simp [splitLoop] at hr
    rcases hr with hr | hr
    · exact hres r hr
    · simpa [hr] using hcur
  | cons child rest ih =>
    intro cur prev res hcur hres r hr
    cases child with
    | group b cs =>
      rw [splitLoop] at hr
      by_cases hsame : areInSameRow gap b prev
      · simp only [hsame, if_true] at hr
        exact ih _ _ _ (by simp) hres r hr
      · simp only [hsame, if_false] at hr
        refine ih _ _ _ (by simp) ?_ r hr
        intro r' hr'
        rcases List.mem_append.mp hr' with h | h
        · exact hres r' h
        · simpa [List.mem_singleton.mp h] using hcur
    | elem b =>
      rw [splitLoop] at hr
      by_cases hsame : areInSameRow gap b prev
      · simp only [hsame, if_true] at hr
        exact ih _ _ _ (by simp) hres r hr
      · simp only [hsame, if_false] at hr
        refine ih _ _ _ (by simp) ?_ r hr
        intro r' hr'
        rcases List.mem_append.mp hr' with h | h
        · exact hres r' h
        · simpa [List.mem_singleton.mp h] using hcur

/-- C10: on a non-empty input, `splitIntoRows` never emits an empty
row. -/
theorem C10_no_empty_rows (gap : ℚ) (nodes : List TreeNode)
    (h : nodes ≠ []) : ∀ row ∈ splitIntoRows gap nodes, row ≠ [] := by
  cases nodes with
  | nil => exact absurd rfl h
  | cons node rest =>
    cases node with
    | group b cs =>
      intro row hrow
      rw [splitIntoRows] at hrow
      simp only [List.mem_singleton] at hrow
      simp [hrow]
    | elem b =>
      rw [splitIntoRows]
      exact splitLoop_rows_ne_nil gap rest _ b _ (by simp) (by simp)

/-- Witness for C10 at a concrete one-element input. -/
theorem C10_witness :
    ([TreeNode.elem ⟨0, 0, 1, 1⟩] ≠ ([] : List TreeNode)) ∧
    ∀ row ∈ splitIntoRows 0 [TreeNode.elem ⟨0, 0, 1, 1⟩], row ≠ [] :=
  ⟨by simp, C10_no_empty_rows 0 [TreeNode.elem ⟨0, 0, 1, 1⟩] (by simp)⟩

/-- Counterexample for C1: a group that is NOT the first child is merged
into the current row when it vertically overlaps the previous element —
here the output is a single row of length 2 holding both the leaf and
the group, so the group is not a singleton row. -/
theorem C1_counterexample :
    splitIntoRows 0
        [TreeNode.elem ⟨0, 0, 10, 10⟩, TreeNode.group ⟨0, 0, 10, 10⟩ []] =
      [[RowNode.elem ⟨0, 0, 10, 10⟩, RowNode.group ⟨0, 0, 10, 10⟩ [] []]] ∧
    ∃ row ∈ splitIntoRows 0
        [TreeNode.elem ⟨0, 0, 10, 10⟩, TreeNode.group ⟨0, 0, 10, 10⟩ []],
      RowNode.group ⟨0, 0, 10, 10⟩ [] [] ∈ row ∧ row.length = 2 := by
  have h : splitIntoRows 0
      [TreeNode.elem ⟨0, 0, 10, 10⟩, TreeNode.group ⟨0, 0, 10, 10⟩ []] =
      [[RowNode.elem ⟨0, 0, 10, 10⟩,
        RowNode.group ⟨0, 0, 10, 10⟩ [] []]] := by
    simp [splitIntoRows, splitLoop, areInSameRow]
  refine ⟨h, [RowNode.elem ⟨0, 0, 10, 10⟩,
    RowNode.group ⟨0, 0, 10, 10⟩ [] []], ?_, ?_, rfl⟩
  · rw [h]
    exact List.mem_singleton_self _
  · simp

/-- Invariant of the row-building loop for the segmentation property:
every group node placed into a row is built as
`{...groupNode, rows := splitIntoRows children}`, so when the current
row and all emitted rows consist of such nodes, so does the result. -/
theorem splitLoop_rowNodeSeg (gap : ℚ) :
    ∀ (rest : List TreeNode) (cur : List RowNode) (prev : Box)
      (res : List (List RowNode)),
      (∀ n ∈ cur, rowNodeSeg gap n) →
      (∀ r ∈ res, ∀ n ∈ r, rowNodeSeg gap n) →
      ∀ r ∈ splitLoop gap rest cur prev res, ∀ n ∈ r, rowNodeSeg gap n := by
  intro rest
  induction rest with
  | nil =>
    intro cur prev res hcur hres r hr
    simp [splitLoop] at hr
    rcases hr with hr | hr
    · exact hres r hr
    · intro n hn
      exact hcur n (hr ▸ hn)
  | cons child rest ih =>
    intro cur prev res hcur hres r hr
    cases child with
    | group b cs =>
      rw [splitLoop] at hr
      have hg : rowNodeSeg gap (RowNode.group b cs (splitIntoRows gap cs)) :=
        rfl
      by_cases hsame : areInSameRow gap b prev
      · simp only [hsame, if_true] at hr
        refine ih _ _ _ ?_ hres r hr
        intro n hn
        rcases List.mem_append.mp hn with h | h
        · exact hcur n h
        · rw [List.mem_singleton.mp h]
          exact hg
      · simp only [hsame, if_false] at hr
        refine ih _ _ _ ?_ ?_ r hr
        · intro n hn
          rw [List.mem_singleton.mp hn]
          exact hg
        · intro r' hr'
          rcases List.mem_append.mp hr' with h | h
          · exact hres r' h
          · rw [List.mem_singleton.mp h]
            exact hcur
    | elem b =>
      rw [splitLoop] at hr
      by_cases hsame : areInSameRow gap b prev
      · simp only [hsame, if_true] at hr
        refine ih _ _ _ ?_ hres r hr
        intro n hn
        rcases List.mem_append.mp hn with h | h
        · exact hcur n h
        · rw [List.mem_singleton.mp h]
          trivial
      · simp only [hsame, if_false] at hr
        refine ih _ _ _ ?_ ?_ r hr
        · intro n hn
          rw [List.mem_singleton.mp hn]
          trivial
        · intro r' hr'
          rcases List.mem_append.mp hr' with h | h
          · exact hres r' h
          · rw [List.mem_singleton.mp h]
            exact hcur

/-- C1 (amended): every Group node occurring in any output row of
`splitIntoRows` carries in its `rows` field exactly the independent
segmentation of its own children. The original claim's "always a
singleton row, never merged with a sibling" is refuted by
the counterexample: a non-leading group that vertically overlaps the
previous element is appended to the current row next to its siblings. -/
theorem C1_amended_group_rows_segmented (gap : ℚ) (nodes : List TreeNode) :
    ∀ row ∈ splitIntoRows gap nodes, ∀ n ∈ row, rowNodeSeg gap n := by
  cases nodes with
  | nil =>
    intro row hrow
    rw [splitIntoRows] at hrow
    simp at hrow
  | cons node rest =>
    cases node with
    | group b cs =>
      intro row hrow n hn
      rw [splitIntoRows] at hrow
      rw [List.mem_singleton.mp hrow] at hn
      rw [List.mem_singleton.mp hn]
      exact rfl
    | elem b =>
      rw [splitIntoRows]
      refine splitLoop_rowNodeSeg gap rest _ b _ ?_ ?_
      · intro n hn
        rw [List.mem_singleton.mp hn]
        trivial
      · intro r hr
        simp at hr

/-- Witness for C1 (amended) at a concrete one-element input. -/
theorem C1_witness :
    ([RowNode.elem ⟨0, 0, 1, 1⟩] ∈
      splitIntoRows 0 [TreeNode.elem ⟨0, 0, 1, 1⟩]) ∧
    (RowNode.elem ⟨0, 0, 1, 1⟩ ∈ [RowNode.elem ⟨0, 0, 1, 1⟩]) ∧
    rowNodeSeg 0 (RowNode.elem ⟨0, 0, 1, 1⟩) := by
  have h1 : splitIntoRows 0 [TreeNode.elem ⟨0, 0, 1, 1⟩] =
      [[RowNode.elem ⟨0, 0, 1, 1⟩]] := by
    simp [splitIntoRows, splitLoop]
  refine ⟨?_, List.mem_singleton_self _, ?_⟩
  · rw [h1]
    exact List.mem_singleton_self _
  · exact C1_amended_group_rows_segmented 0 [TreeNode.elem ⟨0, 0, 1, 1⟩]
      [RowNode.elem ⟨0, 0, 1, 1⟩]
      (by rw [h1]; exact List.mem_singleton_self _)
      (RowNode.elem ⟨0, 0, 1, 1⟩) (List.mem_singleton_self _)

/-- Transitivity of the order on extended rationals. -/
theorem XQ.ble_trans {a b c : XQ} (h1 : a.ble b = true)
    (h2 : b.ble c = true) : a.ble c = true := by
  cases a <;> cases b <;> cases c <;> simp_all [XQ.ble]
  exact le_trans h1 h2

/-- `min a b ≤ a` on extended rationals. -/
theorem XQ.ble_min_left (a b : XQ) : (XQ.min a b).ble a = true := by
  cases a <;> cases b <;> simp [XQ.min, XQ.ble, min_le_left]

/-- `min a b ≤ b` on extended rationals. -/
theorem XQ.ble_min_right (a b : XQ) : (XQ.min a b).ble b = true := by
  cases a <;> cases b <;> simp [XQ.min, XQ.ble, min_le_right]

/-- `a ≤ max a b` on extended rationals. -/
theorem XQ.ble_max_left (a b : XQ) : a.ble (XQ.max a b) = true := by
  cases a <;> cases b <;> simp [XQ.max, XQ.ble, le_max_left]

/-- `b ≤ max a b` on extended rationals. -/
theorem XQ.ble_max_right (a b : XQ) : b.ble (XQ.max a b) = true := by
  cases a <;> cases b <;> simp [XQ.max, XQ.ble, le_max_right]

/-- Componentwise union with a good box on the left stays good. -/
theorem bbUnion_good_left (a b : BBox) (h : goodBox a) :
    goodBox (bbUnion a b) := by
  obtain ⟨hx, hy⟩ := h
  exact ⟨XQ.ble_trans (XQ.ble_min_left a.minX b.minX)
      (XQ.ble_trans hx (XQ.ble_max_left a.maxX b.maxX)),
    XQ.ble_trans (XQ.ble_min_left a.minY b.minY)
      (XQ.ble_trans hy (XQ.ble_max_left a.maxY b.maxY))⟩

/-- Componentwise union with a good box on the right stays good. -/
theorem bbUnion_good_right (a b : BBox) (h : goodBox b) :
    goodBox (bbUnion a b) := by
  obtain ⟨hx, hy⟩ := h
  exact ⟨XQ.ble_trans (XQ.ble_min_right a.minX b.minX)
      (XQ.ble_trans hx (XQ.ble_max_right a.maxX b.maxX)),
    XQ.ble_trans (XQ.ble_min_right a.minY b.minY)
      (XQ.ble_trans hy (XQ.ble_max_right a.maxY b.maxY))⟩

/-- The accumulating loop of `computeGroupNodeBoundingBox` is exactly a
left fold of the componentwise union of each child's own box. -/
theorem bboxLoop_eq_foldl :
    ∀ (l : List TreeNode) (acc : BBox),
      bboxLoop l acc =
        l.foldl (fun a c => bbUnion a (childBox c)) acc := by
  intro l
  induction l with
  | nil =>
    intro acc
    simp [bboxLoop]
  | cons child rest ih =>
    intro acc
    cases child with
    | group b cs =>
      rw [bboxLoop, ih]
      simp [bbUnion, childBox]
    | elem b =>
      rw [bboxLoop, ih]
      simp [bbUnion, childBox]

/-- A fold of box unions is good as soon as its start or any
contributing child box is good. -/
theorem foldl_bbUnion_good :
    ∀ (l : List TreeNode) (acc : BBox),
      (goodBox acc ∨ ∃ c ∈ l, goodBox (childBox c)) →
      goodBox (l.foldl (fun a c => bbUnion a (childBox c)) acc) := by
  intro l
  induction l with
  | nil =>
    intro acc h
    rcases h with h | ⟨c, hc, _⟩
    · exact h
    · simp at hc
  | cons child rest ih =>
    intro acc h
    rw [List.foldl_cons]
    rcases h with h | ⟨c, hc, hg⟩
    · exact ih _ (Or.inl (bbUnion_good_left _ _ h))
    · rcases List.mem_cons.mp hc with hc | hc
      · exact ih _ (Or.inl (bbUnion_good_right _ _ (hc ▸ hg)))
      · exact ih _ (Or.inr ⟨c, hc, hg⟩)

/-- Every member of a well-formed children list is well-formed. -/
theorem listWF_mem :
    ∀ {cs : List TreeNode}, listWF cs = true →
      ∀ c ∈ cs, nodeWF c = true := by
  intro cs
  induction cs with
  | nil =>
    intro _ c hc
    simp at hc
  | cons c0 rest ih =>
    intro hwf c hc
    rw [listWF, Bool.and_eq_true] at hwf
    rcases List.mem_cons.mp hc with hc | hc
    · rw [hc]
      exact hwf.1
    · exact ih hwf.2 c hc

/-- A children list containing some element at some depth has a member
containing an element. -/
theorem listHasElem_exists :
    ∀ {cs : List TreeNode}, listHasElem cs = true →
      ∃ c ∈ cs, nodeHasElem c = true := by
  intro cs
  induction cs with
  | nil =>
    intro h
    rw [listHasElem] at h
    exact absurd h (by simp)
  | cons c0 rest ih =>
    intro h
    rw [listHasElem, Bool.or_eq_true] at h
    rcases h with h | h
    · exact ⟨c0, List.mem_cons_self c0 rest, h⟩
    · obtain ⟨c, hc, hce⟩ := ih h
      exact ⟨c, List.mem_cons_of_mem c0 hc, hce⟩

/-- The own bounding box of a well-formed node containing at least one
element is good: its minima do not exceed its maxima. -/
theorem childBox_good :
    ∀ (n : ℕ) (c : TreeNode), sizeOf c ≤ n → nodeWF c = true →
      nodeHasElem c = true → goodBox (childBox c) := by
  intro n
  induction n using Nat.strong_induction_on with
  | _ n ih =>
    intro c hsz hwf hhe
    cases c with
    | elem b =>
      rw [nodeWF, Bool.and_eq_true] at hwf
      obtain ⟨hw, hh⟩ := hwf
      have hw' : (0 : ℚ) ≤ b.width := of_decide_eq_true hw
      have hh' : (0 : ℚ) ≤ b.height := of_decide_eq_true hh
      constructor
      · simp only [childBox, XQ.ble, decide_eq_true_eq, XQ.le]
        linarith
      · simp only [childBox, XQ.ble, decide_eq_true_eq, XQ.le]
        linarith
    | group b cs =>
      rw [nodeWF] at hwf
      rw [nodeHasElem] at hhe
      obtain ⟨c', hc', hce'⟩ := listHasElem_exists hhe
      have hszc : sizeOf c' < n := by
        have h1 := List.sizeOf_lt_of_mem hc'
        have h2 : sizeOf cs < sizeOf (TreeNode.group b cs) := by
          simp only [TreeNode.group.sizeOf_spec]
          omega
        omega
      have hgood := ih (sizeOf c') hszc c' le_rfl
        (listWF_mem hwf c' hc') hce'
      have : goodBox
          (cs.foldl (fun a c => bbUnion a (childBox c)) bboxSentinel) :=
        foldl_bbUnion_good cs bboxSentinel (Or.inr ⟨c', hc', hgood⟩)
      show goodBox (computeGroupNodeBoundingBox cs)
      rw [computeGroupNodeBoundingBox, bboxLoop_eq_foldl]
      exact this

/-- Counterexample for C5: the singleton list holding a group with no
children is non-empty, every element in it (there are none) has
non-negative size, yet the computed box is the infinities sentinel, for
which `minX ≤ maxX` fails. -/
theorem C5_counterexample :
    ([TreeNode.group ⟨0, 0, 5, 5⟩ []] ≠ []) ∧
    listWF [TreeNode.group ⟨0, 0, 5, 5⟩ []] = true ∧
    computeGroupNodeBoundingBox [TreeNode.group ⟨0, 0, 5, 5⟩ []] =
      bboxSentinel ∧
    ¬ XQ.le
        (computeGroupNodeBoundingBox
          [TreeNode.group ⟨0, 0, 5, 5⟩ []]).minX
        (computeGroupNodeBoundingBox
          [TreeNode.group ⟨0, 0, 5, 5⟩ []]).maxX := by
  have h : computeGroupNodeBoundingBox [TreeNode.group ⟨0, 0, 5, 5⟩ []] =
      bboxSentinel := by
    simp [computeGroupNodeBoundingBox, bboxLoop, bboxSentinel,
      XQ.min, XQ.max]
  refine ⟨by simp, ?_, h, ?_⟩
  · simp [listWF, nodeWF]
  · rw [h]
    simp [bboxSentinel, XQ.le, XQ.ble]

/-- C5 (amended): the box computed by `computeGroupNodeBoundingBox` is
always the componentwise min/max union of each child's own bounding box
(groups contributing their recursively recomputed box, not their cached
geometry); and whenever every element of the sequence has non-negative
width and height AND the sequence contains at least one leaf element at
some depth, the result satisfies `minX ≤ maxX` and `minY ≤ maxY`. The
original claim fails for a non-empty sequence of elementless groups,
whose box is the infinities sentinel. -/
theorem C5_amended_union_and_ordered (cs : List TreeNode) :
    computeGroupNodeBoundingBox cs =
      cs.foldl (fun acc c => bbUnion acc (childBox c)) bboxSentinel ∧
    (listWF cs = true → listHasElem cs = true →
      XQ.le (computeGroupNodeBoundingBox cs).minX
          (computeGroupNodeBoundingBox cs).maxX ∧
        XQ.le (computeGroupNodeBoundingBox cs).minY
          (computeGroupNodeBoundingBox cs).maxY) := by
  have hfold : computeGroupNodeBoundingBox cs =
      cs.foldl (fun acc c => bbUnion acc (childBox c)) bboxSentinel := by
    rw [computeGroupNodeBoundingBox, bboxLoop_eq_foldl]
  refine ⟨hfold, ?_⟩
  intro hwf hhe
  obtain ⟨c, hc, hce⟩ := listHasElem_exists hhe
  have hgood := childBox_good (sizeOf c) c le_rfl (listWF_mem hwf c hc) hce
  have := foldl_bbUnion_good cs bboxSentinel (Or.inr ⟨c, hc, hgood⟩)
  rw [hfold]
  exact this

/-- Witness for C5 (amended) at a concrete singleton element list. -/
theorem C5_witness :
    listWF [TreeNode.elem ⟨0, 0, 1, 1⟩] = true ∧
    listHasElem [TreeNode.elem ⟨0, 0, 1, 1⟩] = true ∧
    (XQ.le
        (computeGroupNodeBoundingBox [TreeNode.elem ⟨0, 0, 1, 1⟩]).minX
        (computeGroupNodeBoundingBox [TreeNode.elem ⟨0, 0, 1, 1⟩]).maxX ∧
      XQ.le
        (computeGroupNodeBoundingBox [TreeNode.elem ⟨0, 0, 1, 1⟩]).minY
        (computeGroupNodeBoundingBox [TreeNode.elem ⟨0, 0, 1, 1⟩]).maxY) := by
  have h1 : listWF [TreeNode.elem ⟨0, 0, 1, 1⟩] = true := by
    norm_num [listWF, nodeWF]
  have h2 : listHasElem [TreeNode.elem ⟨0, 0, 1, 1⟩] = true := by
    simp [listHasElem, nodeHasElem]
  exact ⟨h1, h2,
    (C5_amended_union_and_ordered [TreeNode.elem ⟨0, 0, 1, 1⟩]).2 h1 h2⟩

/-- With more fuel than the nesting depth of the input, the fuel-indexed
segmentation never runs out: it agrees with the total function, for both
the entry point and the row-building loop. -/
theorem splitF_sound (gap : ℚ) :
    ∀ fuel : ℕ,
      (∀ (rest : List TreeNode) (cur : List RowNode) (prev : Box)
          (res : List (List RowNode)), listDepth rest < fuel →
        splitLoopF gap fuel rest cur prev res =
          some (splitLoop gap rest cur prev res)) ∧
      (∀ nodes : List TreeNode, listDepth nodes < fuel →
        splitIntoRowsF gap fuel nodes = some (splitIntoRows gap nodes)) := by
  intro fuel
  induction fuel with
  | zero =>
    exact ⟨fun rest _ _ _ h => absurd h (Nat.not_lt_zero _),
      fun nodes h => absurd h (Nat.not_lt_zero _)⟩
  | succ f ihf =>
    have hloop : ∀ (rest : List TreeNode) (cur : List RowNode) (prev : Box)
        (res : List (List RowNode)), listDepth rest < f + 1 →
        splitLoopF gap (f + 1) rest cur prev res =
          some (splitLoop gap rest cur prev res) := by
      intro rest
      induction rest with
      | nil =>
        intro cur prev res _
        rw [splitLoopF, splitLoop]
      | cons child rest ihr =>
        intro cur prev res hd
        rw [listDepth] at hd
        obtain ⟨hdc, hdrest⟩ := Nat.max_lt.mp hd
        cases child with
        | elem b =>
          rw [splitLoopF, splitLoop]
          by_cases hs : areInSameRow gap b prev
          · simp only [hs, if_true]
            exact ihr _ _ _ hdrest
          · simp only [hs, if_false]
            exact ihr _ _ _ hdrest
        | group b cs =>
          rw [nodeDepth] at hdc
          have hcs : listDepth cs < f := by omega
          rw [splitLoopF, splitLoop]
          rw [ihf.2 cs hcs]
          simp only [Option.some_bind]
          by_cases hs : areInSameRow gap b prev
          · simp only [hs, if_true]
            exact ihr _ _ _ hdrest
          · simp only [hs, if_false]
            exact ihr _ _ _ hdrest
    refine ⟨hloop, ?_⟩
    intro nodes hd
    cases nodes with
    | nil => rw [splitIntoRowsF, splitIntoRows]
    | cons node rest =>
      rw [listDepth] at hd
      obtain ⟨hdn, hdrest⟩ := Nat.max_lt.mp hd
      cases node with
      | elem b =>
        rw [splitIntoRowsF, splitIntoRows]
        exact hloop rest _ _ _ hdrest
      | group b cs =>
        rw [nodeDepth] at hdn
        have hcs : listDepth cs < f := by omega
        rw [splitIntoRowsF, splitIntoRows]
        rw [ihf.2 cs hcs]
        rfl

/-- With more fuel than the nesting depth, the fuel-indexed bounding-box
computation agrees with the total function, for both the loop and the
entry point. -/
theorem bboxF_sound :
    ∀ fuel : ℕ,
      (∀ (l : List TreeNode) (acc : BBox), listDepth l < fuel →
        bboxLoopF fuel l acc = some (bboxLoop l acc)) ∧
      (∀ cs : List TreeNode, listDepth cs < fuel →
        computeGroupNodeBoundingBoxF fuel cs =
          some (computeGroupNodeBoundingBox cs)) := by
  intro fuel
  induction fuel with
  | zero =>
    exact ⟨fun l _ h => absurd h (Nat.not_lt_zero _),
      fun cs h => absurd h (Nat.not_lt_zero _)⟩
  | succ f ihf =>
    have hloop : ∀ (l : List TreeNode) (acc : BBox), listDepth l < f + 1 →
        bboxLoopF (f + 1) l acc = some (bboxLoop l acc) := by
      intro l
      induction l with
      | nil =>
        intro acc _
        rw [bboxLoopF, bboxLoop]
      | cons child rest ihr =>
        intro acc hd
        rw [listDepth] at hd
        obtain ⟨hdc, hdrest⟩ := Nat.max_lt.mp hd
        cases child with
        | elem b =>
          rw [bboxLoopF, bboxLoop]
          exact ihr _ hdrest
        | group b cs =>
          rw [nodeDepth] at hdc
          have hcs : listDepth cs < f := by omega
          rw [bboxLoopF, bboxLoop]
          rw [ihf.2 cs hcs]
          simp only [Option.some_bind]
          exact ihr _ hdrest
    refine ⟨hloop, ?_⟩
    intro cs hd
    rw [computeGroupNodeBoundingBoxF, computeGroupNodeBoundingBox]
    exact hloop cs bboxSentinel hd

/-- C9: both `splitIntoRows` and `computeGroupNodeBoundingBox` terminate
on every finite node tree — the recursion descends only into a group's
children, so fuel exceeding the nesting depth is never exhausted and the
fuel-indexed variants agree with the total functions. -/
theorem C9_terminates (gap : ℚ) (fuel : ℕ) (nodes : List TreeNode)
    (h : listDepth nodes < fuel) :
    splitIntoRowsF gap fuel nodes = some (splitIntoRows gap nodes) ∧
    computeGroupNodeBoundingBoxF fuel nodes =
      some (computeGroupNodeBoundingBox nodes) :=
  ⟨(splitF_sound gap fuel).2 nodes h, (bboxF_sound fuel).2 nodes h⟩

/-- Witness for C9 at a concrete input of depth 0 with fuel 1. -/
theorem C9_witness :
    listDepth [TreeNode.elem ⟨0, 0, 1, 1⟩] < 1 ∧
    (splitIntoRowsF 0 1 [TreeNode.elem ⟨0, 0, 1, 1⟩] =
        some (splitIntoRows 0 [TreeNode.elem ⟨0, 0, 1, 1⟩]) ∧
      computeGroupNodeBoundingBoxF 1 [TreeNode.elem ⟨0, 0, 1, 1⟩] =
        some (computeGroupNodeBoundingBox [TreeNode.elem ⟨0, 0, 1, 1⟩])) := by
  have h : listDepth [TreeNode.elem ⟨0, 0, 1, 1⟩] < 1 := by
    simp [listDepth, nodeDepth]
  exact ⟨h, C9_terminates 0 1 [TreeNode.elem ⟨0, 0, 1, 1⟩] h⟩
